import Mathlib

/-!
Verification development for the magic-square generator in
`src/magic_square.py`.

The Python function `create_magic_square n` is shallowly embedded below.
Machine-level aspects that matter for the claims are modelled explicitly:

* Python `%` and `//` on integers agree with Lean's `Int.emod` / `Int.ediv`
  for the divisors used here (the result of `%` follows the sign of a
  positive divisor, `//` rounds towards negative infinity).
* Python list subscripts may be negative (addressing from the back) and
  raise `IndexError` when out of range; `pyGet` / `pySet` reproduce this.
* The `while num <= total_cells` loop is modelled as a fuel-indexed
  iteration `msLoop`; `create_magic_square` supplies `n * n` units of fuel,
  and the development proves that this budget is exactly the number of
  iterations the Python loop performs for odd positive `n` (claim C8), so
  the fuel device does not change the observable behaviour.  Running out of
  fuel returns the loop state at that point, which makes the intermediate
  states of the construction observable for the invariant claims.
-/

/-- Outcomes that abort the embedded computation: an out-of-range list
subscript (Python `IndexError`), or exhaustion of the step budget used to
model the `while` loop (`fuelOut` carries the loop state `grid`, `r`, `c`,
`num` reached at that point). -/
inductive PyExc where
  | indexError : PyExc
  | fuelOut : List (List ℤ) → ℤ → ℤ → ℤ → PyExc

/-- Python list-subscript resolution: non-negative indices address from the
front, negative ones from the back, anything else is out of range. -/
def pyIdx (len : ℕ) (i : ℤ) : Option ℕ :=
  let j := if i < 0 then i + len else i
  if 0 ≤ j ∧ j < len then some j.toNat else none

/-- Python list read `l[i]`. -/
def pyGet {α : Type} (l : List α) (i : ℤ) : Except PyExc α :=
  match pyIdx l.length i with
  | some j =>
    match l[j]? with
    | some a => .ok a
    | none => .error .indexError
  | none => .error .indexError

/-- Python list element assignment `l[i] = a`, returning the updated list. -/
def pySet {α : Type} (l : List α) (i : ℤ) (a : α) : Except PyExc (List α) :=
  match pyIdx l.length i with
  | some j => .ok (l.set j a)
  | none => .error .indexError

/-- The body of `while num <= total_cells:` in `create_magic_square`
(src/magic_square.py lines 42-60), iterated under a fuel budget.  Each
iteration assigns `magic_square[r][c] = num`, moves the cursor up-right with
toroidal wraparound, and, if the candidate cell is occupied, drops one row
down from the previous position instead.  `prev_r, prev_c` of the Python
code are the unmodified `r, c` arguments. -/
def msLoop (n total : ℤ) (fuel : ℕ) (grid : List (List ℤ)) (r c num : ℤ) :
    Except PyExc (List (List ℤ)) :=
  if num ≤ total then
    match fuel with
    | 0 => .error (.fuelOut grid r c num)
    | fuel + 1 =>
      match pyGet grid r with
      | .error e => .error e
      | .ok row =>
        match pySet row c num with
        | .error e => .error e
        | .ok row2 =>
          match pySet grid r row2 with
          | .error e => .error e
          | .ok grid2 =>
            match pyGet grid2 ((r - 1) % n) with
            | .error e => .error e
            | .ok row3 =>
              match pyGet row3 ((c + 1) % n) with
              | .error e => .error e
              | .ok v =>
                if v ≠ 0 then
                  msLoop n total fuel grid2 ((r + 1) % n) c (num + 1)
                else
                  msLoop n total fuel grid2 ((r - 1) % n) ((c + 1) % n) (num + 1)
  else .ok grid

/-- Embedding of `create_magic_square` (src/magic_square.py lines 14-62).
Python's `return None` on even `n` becomes `.ok none`; a returned grid
becomes `.ok (some grid)`; an uncaught `IndexError` becomes `.error`. -/
def create_magic_square (n : ℤ) : Except PyExc (Option (List (List ℤ))) :=
  if n % 2 = 0 then .ok none
  else
    match msLoop n (n * n) (n * n).toNat
        (List.replicate n.toNat (List.replicate n.toNat 0)) 0 (n / 2) 1 with
    | .error e => .error e
    | .ok g => .ok (some g)

/-- The magic constant of an order-`n` square, as the spec writes it. -/
def magicSum (n : ℤ) : ℤ := n * (n * n + 1) / 2

example : create_magic_square 3 = .ok (some [[8, 1, 6], [3, 5, 7], [4, 9, 2]]) := by
  simp [create_magic_square, msLoop, pyGet, pySet, pyIdx]

example : create_magic_square 1 = .ok (some [[1]]) := by
  simp [create_magic_square, msLoop, pyGet, pySet, pyIdx]

example : create_magic_square 4 = .ok none := by
  simp [create_magic_square]

example : create_magic_square (-3) = .error .indexError := by
  simp [create_magic_square, msLoop, pyGet, pySet, pyIdx]

example : create_magic_square 5 =
    .ok (some [[17, 24, 1, 8, 15], [23, 5, 7, 14, 16], [4, 6, 13, 20, 22],
      [10, 12, 19, 21, 3], [11, 18, 25, 2, 9]]) := by
  simp [create_magic_square, msLoop, pyGet, pySet, pyIdx]

/-- Cursor rule of the spec, step 3c/3d: candidate cell diagonally up-right
with toroidal wraparound; if that single cell is occupied in the grid as it
stands after the assignment, drop one row down from the previous position
instead, keeping the column.  Written from the spec's words, to be compared
with the transition `msLoop` actually takes (claim C4). -/
def specNextCursor (n : ℤ) (g : List (List ℤ)) (pr pc : ℤ) : ℤ × ℤ :=
  let nr := (pr - 1) % n
  let nc := (pc + 1) % n
  if (g.getD nr.toNat []).getD nc.toNat 0 ≠ 0 then ((pr + 1) % n, pc) else (nr, nc)

/-!
Closed form of the Siamese placement.  Number `k + 1` (for `0 ≤ k < n²`,
`k = q·n + s`) is placed at row `(2q - s) mod n`, column
`(n/2 - q + s) mod n`; conversely the cell `(r, c)` receives the value
`n·q + s + 1` where `q = (r + c - n/2) mod n` and `s = (2q - r) mod n`.
`gridAt n k` is the grid after the first `k` numbers have been placed,
with the empty sentinel 0 elsewhere.
-/

/-- Row of the cell receiving number `k + 1`. -/
def rowPos (n k : ℤ) : ℤ := (2 * (k / n) - k % n) % n

/-- Column of the cell receiving number `k + 1`. -/
def colPos (n k : ℤ) : ℤ := (n / 2 - k / n + k % n) % n

/-- Index of the run (block of `n` consecutive numbers) whose member lands
at cell `(r, c)`. -/
def valueQ (n r c : ℤ) : ℤ := (r + c - n / 2) % n

/-- Offset within the run of the number landing at cell `(r, c)`. -/
def valueS (n r c : ℤ) : ℤ := (2 * valueQ n r c - r) % n

/-- The number that the completed square holds at cell `(r, c)`. -/
def valueAt (n r c : ℤ) : ℤ := n * valueQ n r c + valueS n r c + 1

/-- Contents of cell `(r, c)` after the first `k` numbers are placed. -/
def cellVal (n k r c : ℤ) : ℤ :=
  if valueAt n r c ≤ k then valueAt n r c else 0

/-- The whole grid after the first `k` numbers are placed. -/
def gridAt (n k : ℤ) : List (List ℤ) :=
  (List.range n.toNat).map fun r : ℕ =>
    (List.range n.toNat).map fun c : ℕ => cellVal n k (r : ℤ) (c : ℤ)

/-!  Modular-arithmetic toolkit: equalities of `Int.emod` expressions are
established by casting to `ZMod N` and ring-normalising. -/

/-- Casting an `Int.emod` by `N` into `ZMod N` drops the reduction. -/
theorem zmodCast_emod (N : ℕ) (a : ℤ) :
    ((a % (N : ℤ) : ℤ) : ZMod N) = (a : ZMod N) := by
  rw [Int.emod_def]
  push_cast [ZMod.natCast_self]
  ring

/-- Two integers with equal images in `ZMod N` have equal `emod N`. -/
theorem emod_eq_emod_of_zmodCast {N : ℕ} {a b : ℤ}
    (h : (a : ZMod N) = (b : ZMod N)) : a % (N : ℤ) = b % (N : ℤ) :=
  (ZMod.intCast_eq_intCast_iff a b N).mp h

/-- An `emod` equals a reduced representative with the same `ZMod N` image. -/
theorem emod_eq_of_zmodCast {N : ℕ} {a b : ℤ}
    (h : (a : ZMod N) = (b : ZMod N)) (hb0 : 0 ≤ b) (hbN : b < (N : ℤ)) :
    a % (N : ℤ) = b := by
  have h1 := emod_eq_emod_of_zmodCast h
  rwa [Int.emod_eq_of_lt hb0 hbN] at h1

/-- Division bound: `0 ≤ k < n·n` gives `0 ≤ k/n < n`. -/
theorem ediv_sq_bounds {n k : ℤ} (hn : 0 < n) (h0 : 0 ≤ k) (hk : k < n * n) :
    0 ≤ k / n ∧ k / n < n :=
  ⟨Int.ediv_nonneg h0 (le_of_lt hn), (Int.ediv_lt_iff_lt_mul hn).mpr hk⟩

/-- Quotient of `a + b·n` by `n` when `0 ≤ a < n`. -/
theorem ediv_of_decomp {n a b : ℤ} (hn : 0 < n) (h0 : 0 ≤ a) (ha : a < n) :
    (a + b * n) / n = b := by
  rw [Int.add_mul_ediv_right _ _ (ne_of_gt hn), Int.ediv_eq_zero_of_lt h0 ha,
    zero_add]

/-- Remainder of `a + b·n` by `n` when `0 ≤ a < n`. -/
theorem emod_of_decomp {n a b : ℤ} (hn : 0 < n) (h0 : 0 ≤ a) (ha : a < n) :
    (a + b * n) % n = a := by
  rw [Int.add_mul_emod_self, Int.emod_eq_of_lt h0 ha]

/-- `rowPos` lands in `[0, n)`. -/
theorem rowPos_bounds {n : ℤ} (hn : 0 < n) (k : ℤ) :
    0 ≤ rowPos n k ∧ rowPos n k < n :=
  ⟨Int.emod_nonneg _ (ne_of_gt hn), Int.emod_lt_of_pos _ hn⟩

/-- `colPos` lands in `[0, n)`. -/
theorem colPos_bounds {n : ℤ} (hn : 0 < n) (k : ℤ) :
    0 ≤ colPos n k ∧ colPos n k < n :=
  ⟨Int.emod_nonneg _ (ne_of_gt hn), Int.emod_lt_of_pos _ hn⟩

/-- `valueQ` lands in `[0, n)`. -/
theorem valueQ_bounds {n : ℤ} (hn : 0 < n) (r c : ℤ) :
    0 ≤ valueQ n r c ∧ valueQ n r c < n :=
  ⟨Int.emod_nonneg _ (ne_of_gt hn), Int.emod_lt_of_pos _ hn⟩

/-- `valueS` lands in `[0, n)`. -/
theorem valueS_bounds {n : ℤ} (hn : 0 < n) (r c : ℤ) :
    0 ≤ valueS n r c ∧ valueS n r c < n :=
  ⟨Int.emod_nonneg _ (ne_of_gt hn), Int.emod_lt_of_pos _ hn⟩

/-- Every cell value of the completed square lies in `[1, n²]`. -/
theorem valueAt_bounds {n : ℤ} (hn : 0 < n) (r c : ℤ) :
    1 ≤ valueAt n r c ∧ valueAt n r c ≤ n * n := by
  obtain ⟨hq0, hq1⟩ := valueQ_bounds hn r c
  obtain ⟨hs0, hs1⟩ := valueS_bounds hn r c
  unfold valueAt
  constructor
  · nlinarith
  · nlinarith

/-- Run index of the cell receiving number `k + 1` is `k / n`. -/
theorem valueQ_place {n : ℤ} (hn : 0 < n) {k : ℤ} (h0 : 0 ≤ k)
    (hk : k < n * n) : valueQ n (rowPos n k) (colPos n k) = k / n := by
  obtain ⟨hQ0, hQ1⟩ := ediv_sq_bounds hn h0 hk
  lift n to ℕ using hn.le
  unfold valueQ rowPos colPos
  apply emod_eq_of_zmodCast _ hQ0 hQ1
  push_cast [zmodCast_emod]
  ring

/-- Run offset of the cell receiving number `k + 1` is `k % n`. -/
theorem valueS_place {n : ℤ} (hn : 0 < n) {k : ℤ} (h0 : 0 ≤ k)
    (hk : k < n * n) : valueS n (rowPos n k) (colPos n k) = k % n := by
  have hS0 : 0 ≤ k % n := Int.emod_nonneg _ (ne_of_gt hn)
  have hS1 : k % n < n := Int.emod_lt_of_pos _ hn
  lift n to ℕ using hn.le
  unfold valueS valueQ rowPos colPos
  apply emod_eq_of_zmodCast _ hS0 hS1
  push_cast [zmodCast_emod]
  ring

/-- The cell receiving number `k + 1` indeed holds value `k + 1`. -/
theorem valueAt_place {n : ℤ} (hn : 0 < n) {k : ℤ} (h0 : 0 ≤ k)
    (hk : k < n * n) : valueAt n (rowPos n k) (colPos n k) = k + 1 := by
  rw [valueAt, valueQ_place hn h0 hk, valueS_place hn h0 hk]
  have h := Int.ediv_add_emod k n
  linarith

/-- Row inversion: the number at `(r, c)` is placed at row `r`. -/
theorem rowPos_value {n : ℤ} (hn : 0 < n) {r c : ℤ} (hr0 : 0 ≤ r) (hr : r < n)
    (hc0 : 0 ≤ c) (hc : c < n) : rowPos n (valueAt n r c - 1) = r := by
  obtain ⟨hs0, hs1⟩ := valueS_bounds hn r c
  have hd : valueAt n r c - 1 = valueS n r c + valueQ n r c * n := by
    unfold valueAt; ring
  rw [rowPos, hd, ediv_of_decomp hn hs0 hs1, emod_of_decomp hn hs0 hs1]
  lift n to ℕ using hn.le
  unfold valueS valueQ
  apply emod_eq_of_zmodCast _ hr0 hr
  push_cast [zmodCast_emod]
  ring

/-- Column inversion: the number at `(r, c)` is placed at column `c`. -/
theorem colPos_value {n : ℤ} (hn : 0 < n) {r c : ℤ} (hr0 : 0 ≤ r) (hr : r < n)
    (hc0 : 0 ≤ c) (hc : c < n) : colPos n (valueAt n r c - 1) = c := by
  obtain ⟨hs0, hs1⟩ := valueS_bounds hn r c
  have hd : valueAt n r c - 1 = valueS n r c + valueQ n r c * n := by
    unfold valueAt; ring
  rw [colPos, hd, ediv_of_decomp hn hs0 hs1, emod_of_decomp hn hs0 hs1]
  lift n to ℕ using hn.le
  unfold valueS valueQ
  apply emod_eq_of_zmodCast _ hc0 hc
  push_cast [zmodCast_emod]
  ring

/-- A cell holds value `k + 1` exactly when it is the `k`-th placement. -/
theorem valueAt_eq_iff {n : ℤ} (hn : 0 < n) {k r c : ℤ} (h0 : 0 ≤ k)
    (hk : k < n * n) (hr0 : 0 ≤ r) (hr : r < n) (hc0 : 0 ≤ c) (hc : c < n) :
    valueAt n r c = k + 1 ↔ r = rowPos n k ∧ c = colPos n k := by
  constructor
  · intro h
    have h1 := rowPos_value hn hr0 hr hc0 hc
    have h2 := colPos_value hn hr0 hr hc0 hc
    rw [h, show k + 1 - 1 = k from by ring] at h1 h2
    exact ⟨h1.symm, h2.symm⟩
  · rintro ⟨rfl, rfl⟩
    exact valueAt_place hn h0 hk

/-- Run index is reversed under the central reflection of the square. -/
theorem valueQ_reflect {n : ℤ} (hn : 0 < n) (hodd : n % 2 = 1) {r c : ℤ} :
    valueQ n (n - 1 - r) (n - 1 - c) = n - 1 - valueQ n r c := by
  obtain ⟨hq0, hq1⟩ := valueQ_bounds hn r c
  have h2 : 2 * (n / 2) = n - 1 := by omega
  lift n to ℕ using hn.le
  have h2c := congrArg (fun t : ℤ => (t : ZMod n)) h2
  push_cast [ZMod.natCast_self] at h2c
  unfold valueQ at hq0 hq1 ⊢
  apply emod_eq_of_zmodCast _ (by linarith) (by linarith)
  push_cast [zmodCast_emod, ZMod.natCast_self]
  linear_combination (-1 : ZMod n) * h2c

/-- Run offset is reversed under the central reflection of the square. -/
theorem valueS_reflect {n : ℤ} (hn : 0 < n) (hodd : n % 2 = 1) {r c : ℤ} :
    valueS n (n - 1 - r) (n - 1 - c) = n - 1 - valueS n r c := by
  obtain ⟨hs0, hs1⟩ := valueS_bounds hn r c
  have h2 : 2 * (n / 2) = n - 1 := by omega
  lift n to ℕ using hn.le
  have h2c := congrArg (fun t : ℤ => (t : ZMod n)) h2
  push_cast [ZMod.natCast_self] at h2c
  unfold valueS valueQ at hs0 hs1 ⊢
  apply emod_eq_of_zmodCast _ (by linarith) (by linarith)
  push_cast [zmodCast_emod, ZMod.natCast_self]
  linear_combination (-2 : ZMod n) * h2c

/-- Centro-symmetry of the completed square: diametrically opposite cells
sum to `n² + 1`. -/
theorem valueAt_reflect {n : ℤ} (hn : 0 < n) (hodd : n % 2 = 1) {r c : ℤ} :
    valueAt n (n - 1 - r) (n - 1 - c) = n * n + 1 - valueAt n r c := by
  rw [valueAt, valueQ_reflect hn hodd, valueS_reflect hn hodd, valueAt]
  ring

/-- Cursor step inside a run: the next number goes diagonally up-right. -/
theorem stepPos_inner {n k : ℤ} (hn : 0 < n) (h0 : 0 ≤ k)
    (hs : k % n < n - 1) :
    rowPos n (k + 1) = (rowPos n k - 1) % n ∧
    colPos n (k + 1) = (colPos n k + 1) % n := by
  have hS0 : 0 ≤ k % n := Int.emod_nonneg _ (ne_of_gt hn)
  have hrep : k + 1 = (k % n + 1) + (k / n) * n := by
    have h := Int.ediv_add_emod k n
    linarith
  have ha0 : (0 : ℤ) ≤ k % n + 1 := by linarith
  have ha1 : k % n + 1 < n := by linarith
  constructor
  · rw [rowPos, rowPos, hrep, ediv_of_decomp hn ha0 ha1,
      emod_of_decomp hn ha0 ha1]
    lift n to ℕ using hn.le
    apply emod_eq_emod_of_zmodCast
    push_cast [zmodCast_emod]
    ring
  · rw [colPos, colPos, hrep, ediv_of_decomp hn ha0 ha1,
      emod_of_decomp hn ha0 ha1]
    lift n to ℕ using hn.le
    apply emod_eq_emod_of_zmodCast
    push_cast [zmodCast_emod]
    ring

/-- Cursor step at a run boundary: the diagonal candidate is the start of
the finished run, and the selected cell is one row below the previous
placement, in the same column. -/
theorem stepPos_boundary {n k : ℤ} (hn : 0 < n) (h0 : 0 ≤ k)
    (hs : k % n = n - 1) :
    rowPos n (k + 1) = (rowPos n k + 1) % n ∧
    colPos n (k + 1) = colPos n k ∧
    (rowPos n k - 1) % n = rowPos n (k + 1 - n) ∧
    (colPos n k + 1) % n = colPos n (k + 1 - n) := by
  have h := Int.ediv_add_emod k n
  have hrep1 : k + 1 = 0 + (k / n + 1) * n := by linarith
  have hrep2 : k + 1 - n = 0 + (k / n) * n := by linarith
  have ha0 : (0 : ℤ) ≤ 0 := le_refl 0
  refine ⟨?_, ?_, ?_, ?_⟩
  · rw [rowPos, rowPos, hrep1, ediv_of_decomp hn ha0 hn,
      emod_of_decomp hn ha0 hn, hs]
    lift n to ℕ using hn.le
    apply emod_eq_emod_of_zmodCast
    push_cast [zmodCast_emod, ZMod.natCast_self]
    ring
  · rw [colPos, colPos, hrep1, ediv_of_decomp hn ha0 hn,
      emod_of_decomp hn ha0 hn, hs]
    lift n to ℕ using hn.le
    apply emod_eq_emod_of_zmodCast
    push_cast [zmodCast_emod, ZMod.natCast_self]
    ring
  · rw [rowPos, rowPos, hrep2, ediv_of_decomp hn ha0 hn,
      emod_of_decomp hn ha0 hn, hs]
    lift n to ℕ using hn.le
    apply emod_eq_emod_of_zmodCast
    push_cast [zmodCast_emod, ZMod.natCast_self]
    ring
  · rw [colPos, colPos, hrep2, ediv_of_decomp hn ha0 hn,
      emod_of_decomp hn ha0 hn, hs]
    lift n to ℕ using hn.le
    apply emod_eq_emod_of_zmodCast
    push_cast [zmodCast_emod, ZMod.natCast_self]
    ring

/-- One unfolding of `msLoop` when the loop guard holds and fuel remains. -/
theorem msLoop_succ (n total : ℤ) (fuel : ℕ) (grid : List (List ℤ))
    (r c num : ℤ) (h : num ≤ total) :
    msLoop n total (fuel + 1) grid r c num =
      match pyGet grid r with
      | .error e => .error e
      | .ok row =>
        match pySet row c num with
        | .error e => .error e
        | .ok row2 =>
          match pySet grid r row2 with
          | .error e => .error e
          | .ok grid2 =>
            match pyGet grid2 ((r - 1) % n) with
            | .error e => .error e
            | .ok row3 =>
              match pyGet row3 ((c + 1) % n) with
              | .error e => .error e
              | .ok v =>
                if v ≠ 0 then
                  msLoop n total fuel grid2 ((r + 1) % n) c (num + 1)
                else
                  msLoop n total fuel grid2 ((r - 1) % n) ((c + 1) % n)
                    (num + 1) := by
  rw [msLoop.eq_def, if_pos h]

/-- `msLoop` with empty fuel but a live guard reports the loop state. -/
theorem msLoop_fuel_zero (n total : ℤ) (grid : List (List ℤ)) (r c num : ℤ)
    (h : num ≤ total) :
    msLoop n total 0 grid r c num = .error (.fuelOut grid r c num) := by
  rw [msLoop.eq_def, if_pos h]

/-- `msLoop` returns the grid once the guard `num ≤ total` fails. -/
theorem msLoop_done (n total : ℤ) (fuel : ℕ) (grid : List (List ℤ))
    (r c num : ℤ) (h : ¬ num ≤ total) :
    msLoop n total fuel grid r c num = .ok grid := by
  rw [msLoop.eq_def, if_neg h]

/-- `pyIdx` on an in-range non-negative index. -/
theorem pyIdx_of_nonneg {len : ℕ} {i : ℤ} (h0 : 0 ≤ i) (h : i < (len : ℤ)) :
    pyIdx len i = some i.toNat := by
  simp only [pyIdx]
  rw [if_neg (by omega : ¬ i < 0), if_pos ⟨h0, h⟩]

/-- `pyGet` on an in-range non-negative index reads the element. -/
theorem pyGet_ok {α : Type} {l : List α} {i : ℤ} (h0 : 0 ≤ i)
    (hlt : i.toNat < l.length) : pyGet l i = .ok l[i.toNat] := by
  unfold pyGet
  rw [pyIdx_of_nonneg h0 (by omega)]
  simp [List.getElem?_eq_getElem hlt]

/-- `pySet` on an in-range non-negative index updates the element. -/
theorem pySet_ok {α : Type} {l : List α} {i : ℤ} (a : α) (h0 : 0 ≤ i)
    (hlt : i.toNat < l.length) : pySet l i a = .ok (l.set i.toNat a) := by
  unfold pySet
  rw [pyIdx_of_nonneg h0 (by omega)]

/-- `gridAt` has `n` rows. -/
theorem gridAt_length (n k : ℤ) : (gridAt n k).length = n.toNat := by
  unfold gridAt
  rw [List.length_map, List.length_range]

/-- The `r`-th row of `gridAt`. -/
theorem gridAt_getElem (n k : ℤ) {r : ℕ} (hr : r < (gridAt n k).length) :
    (gridAt n k)[r] =
      (List.range n.toNat).map fun c : ℕ => cellVal n k (r : ℤ) (c : ℤ) := by
  unfold gridAt at hr ⊢
  rw [List.getElem_map, List.getElem_range]

/-- Before any placement the grid is all zeros, as allocated by the code. -/
theorem gridAt_zero {n : ℤ} (hn : 0 < n) :
    gridAt n 0 = List.replicate n.toNat (List.replicate n.toNat 0) := by
  have hcell : ∀ r c : ℤ, cellVal n 0 r c = 0 := by
    intro r c
    unfold cellVal
    rw [if_neg]
    have h1 := (valueAt_bounds hn r c).1
    linarith
  apply List.ext_getElem
  · rw [gridAt_length, List.length_replicate]
  · intro i h1 h2
    rw [gridAt_getElem n 0 h1, List.getElem_replicate]
    apply List.ext_getElem
    · rw [List.length_map, List.length_range, List.length_replicate]
    · intro j g1 g2
      rw [List.getElem_map, List.getElem_range, List.getElem_replicate, hcell]

/-- How one placement transforms a cell: the target cell receives `k + 1`,
other cells keep their contents. -/
theorem cellVal_succ {n : ℤ} (hn : 0 < n) {k : ℤ} (h0 : 0 ≤ k)
    (hk : k < n * n) {r c : ℤ} (hr0 : 0 ≤ r) (hr : r < n) (hc0 : 0 ≤ c)
    (hc : c < n) :
    cellVal n (k + 1) r c =
      if r = rowPos n k ∧ c = colPos n k then k + 1 else cellVal n k r c := by
  unfold cellVal
  by_cases hplace : r = rowPos n k ∧ c = colPos n k
  · rw [if_pos hplace,
      (valueAt_eq_iff hn h0 hk hr0 hr hc0 hc).mpr hplace, if_pos (le_refl _)]
  · rw [if_neg hplace]
    have hv : valueAt n r c ≠ k + 1 := fun hh =>
      hplace ((valueAt_eq_iff hn h0 hk hr0 hr hc0 hc).mp hh)
    by_cases hle : valueAt n r c ≤ k
    · rw [if_pos (by linarith), if_pos hle]
    · have hgt : k + 1 < valueAt n r c :=
        lt_of_le_of_ne (by linarith [not_le.mp hle]) (Ne.symm hv)
      rw [if_neg (not_le.mpr hgt), if_neg hle]

/-- One iteration of the construction loop, started on the state reached
after `k` placements, performs placement `k + 1` and moves the cursor to
the cell of placement `k + 2`. -/
theorem msLoop_step {n : ℤ} (hn : 0 < n) {k : ℤ} (h0 : 0 ≤ k)
    (hk : k < n * n) (total : ℤ) (htot : k + 1 ≤ total) (fuel : ℕ) :
    msLoop n total (fuel + 1) (gridAt n k) (rowPos n k) (colPos n k) (k + 1) =
      msLoop n total fuel (gridAt n (k + 1)) (rowPos n (k + 1))
        (colPos n (k + 1)) (k + 2) := by
  obtain ⟨hr0, hr1⟩ := rowPos_bounds hn k
  obtain ⟨hc0, hc1⟩ := colPos_bounds hn k
  have hRcast : (((rowPos n k).toNat : ℕ) : ℤ) = rowPos n k :=
    Int.toNat_of_nonneg hr0
  have hCcast : (((colPos n k).toNat : ℕ) : ℤ) = colPos n k :=
    Int.toNat_of_nonneg hc0
  have hRlen : (rowPos n k).toNat < (gridAt n k).length := by
    rw [gridAt_length]; omega
  have hget1 : pyGet (gridAt n k) (rowPos n k) =
      .ok ((gridAt n k)[(rowPos n k).toNat]) := pyGet_ok hr0 hRlen
  have hrowval := gridAt_getElem n k hRlen
  have hClen : (colPos n k).toNat < ((gridAt n k)[(rowPos n k).toNat]).length := by
    rw [hrowval, List.length_map, List.length_range]; omega
  have hset1 : pySet ((gridAt n k)[(rowPos n k).toNat]) (colPos n k) (k + 1) =
      .ok (((gridAt n k)[(rowPos n k).toNat]).set (colPos n k).toNat (k + 1)) :=
    pySet_ok _ hc0 hClen
  have hset2 : pySet (gridAt n k) (rowPos n k)
      (((gridAt n k)[(rowPos n k).toNat]).set (colPos n k).toNat (k + 1)) =
      .ok ((gridAt n k).set (rowPos n k).toNat
        (((gridAt n k)[(rowPos n k).toNat]).set (colPos n k).toNat (k + 1))) :=
    pySet_ok _ hr0 hRlen
  have hupd : (gridAt n k).set (rowPos n k).toNat
      (((gridAt n k)[(rowPos n k).toNat]).set (colPos n k).toNat (k + 1)) =
      gridAt n (k + 1) := by
    apply List.ext_getElem
    · rw [List.length_set, gridAt_length, gridAt_length]
    · intro i hi1 hi2
      have hiN : i < n.toNat := by
        rw [List.length_set, gridAt_length] at hi1; omega
      have hiN' : i < (gridAt n k).length := by rw [gridAt_length]; omega
      have hiN'' : i < (gridAt n (k + 1)).length := by rw [gridAt_length]; omega
      rw [List.getElem_set, gridAt_getElem n (k + 1) hiN'']
      by_cases hiR : (rowPos n k).toNat = i
      · rw [if_pos hiR]
        subst hiR
        rw [hrowval]
        apply List.ext_getElem
        · rw [List.length_set, List.length_map, List.length_map]
        · intro j hj1 hj2
          have hjN : j < n.toNat := by
            rw [List.length_map, List.length_range] at hj2; omega
          rw [List.getElem_set]
          simp only [List.getElem_map, List.getElem_range]
          rw [cellVal_succ hn h0 hk (Int.natCast_nonneg _) (by omega)
            (Int.natCast_nonneg _) (by omega)]
          by_cases hjC : (colPos n k).toNat = j
          · rw [if_pos hjC, if_pos ⟨hRcast, by rw [← hjC]; exact hCcast⟩]
          · rw [if_neg hjC,
              if_neg (fun hh => hjC (Nat.cast_injective (hCcast.trans hh.2.symm)))]
      · rw [if_neg hiR, gridAt_getElem n k hiN']
        apply List.ext_getElem
        · rw [List.length_map, List.length_map]
        · intro j hj1 hj2
          have hjN : j < n.toNat := by
            rw [List.length_map, List.length_range] at hj2; omega
          simp only [List.getElem_map, List.getElem_range]
          rw [cellVal_succ hn h0 hk (Int.natCast_nonneg _) (by omega)
            (Int.natCast_nonneg _) (by omega),
            if_neg (fun hh => hiR (Nat.cast_injective (hRcast.trans hh.1.symm)))]
  have hS1 : k % n < n := Int.emod_lt_of_pos _ hn
  have hnum : k + 1 + 1 = k + 2 := by ring
  rcases lt_or_eq_of_le (show k % n ≤ n - 1 by linarith) with hS | hS
  · -- within a run: the diagonal candidate is still empty
    obtain ⟨e1, e2⟩ := stepPos_inner hn h0 hS
    have hk1 : k + 1 < n * n := by
      rcases lt_or_eq_of_le (show k ≤ n * n - 1 by linarith) with h | h
      · linarith
      · exfalso
        have hmod : k % n = n - 1 := by
          rw [h, show n * n - 1 = (n - 1) + (n - 1) * n from by ring]
          exact emod_of_decomp hn (by linarith) (by linarith)
        linarith
    obtain ⟨hr0', hr1'⟩ := rowPos_bounds hn (k + 1)
    obtain ⟨hc0', hc1'⟩ := colPos_bounds hn (k + 1)
    have hRcast' : (((rowPos n (k + 1)).toNat : ℕ) : ℤ) = rowPos n (k + 1) :=
      Int.toNat_of_nonneg hr0'
    have hCcast' : (((colPos n (k + 1)).toNat : ℕ) : ℤ) = colPos n (k + 1) :=
      Int.toNat_of_nonneg hc0'
    have hRlen' : (rowPos n (k + 1)).toNat < (gridAt n (k + 1)).length := by
      rw [gridAt_length]; omega
    have hget2 : pyGet (gridAt n (k + 1)) (rowPos n (k + 1)) =
        .ok ((gridAt n (k + 1))[(rowPos n (k + 1)).toNat]) := pyGet_ok hr0' hRlen'
    have hget3 : pyGet ((gridAt n (k + 1))[(rowPos n (k + 1)).toNat])
        (colPos n (k + 1)) = .ok 0 := by
      rw [gridAt_getElem n (k + 1) hRlen']
      have hClen' : (colPos n (k + 1)).toNat <
          ((List.range n.toNat).map fun c : ℕ =>
            cellVal n (k + 1) ((rowPos n (k + 1)).toNat : ℤ) (c : ℤ)).length := by
        rw [List.length_map, List.length_range]; omega
      rw [pyGet_ok hc0' hClen']
      simp only [List.getElem_map, List.getElem_range]
      rw [hRcast', hCcast']
      unfold cellVal
      rw [valueAt_place hn (by linarith) hk1, if_neg (by linarith)]
    rw [msLoop_succ _ _ _ _ _ _ _ htot, hget1]
    simp only []
    rw [hset1]
    simp only []
    rw [hset2]
    simp only []
    rw [hupd, ← e1, ← e2, hget2]
    simp only []
    rw [hget3]
    simp only []
    rw [if_neg (by simp), hnum]
  · -- run boundary: the diagonal candidate is the start of the finished run
    obtain ⟨e1, e2, e3, e4⟩ := stepPos_boundary hn h0 hS
    have hQ0 := (ediv_sq_bounds hn h0 hk).1
    have hdm := Int.ediv_add_emod k n
    have hj0 : 0 ≤ k + 1 - n := by nlinarith [mul_nonneg hn.le hQ0]
    have hj1 : k + 1 - n < n * n := by nlinarith
    obtain ⟨hr0', hr1'⟩ := rowPos_bounds hn (k + 1 - n)
    obtain ⟨hc0', hc1'⟩ := colPos_bounds hn (k + 1 - n)
    have hRcast' : (((rowPos n (k + 1 - n)).toNat : ℕ) : ℤ) =
        rowPos n (k + 1 - n) := Int.toNat_of_nonneg hr0'
    have hCcast' : (((colPos n (k + 1 - n)).toNat : ℕ) : ℤ) =
        colPos n (k + 1 - n) := Int.toNat_of_nonneg hc0'
    have hRlen' : (rowPos n (k + 1 - n)).toNat < (gridAt n (k + 1)).length := by
      rw [gridAt_length]; omega
    have hget2 : pyGet (gridAt n (k + 1)) (rowPos n (k + 1 - n)) =
        .ok ((gridAt n (k + 1))[(rowPos n (k + 1 - n)).toNat]) :=
      pyGet_ok hr0' hRlen'
    have hget3 : pyGet ((gridAt n (k + 1))[(rowPos n (k + 1 - n)).toNat])
        (colPos n (k + 1 - n)) = .ok (k + 1 - n + 1) := by
      rw [gridAt_getElem n (k + 1) hRlen']
      have hClen' : (colPos n (k + 1 - n)).toNat <
          ((List.range n.toNat).map fun c : ℕ =>
            cellVal n (k + 1) ((rowPos n (k + 1 - n)).toNat : ℤ) (c : ℤ)).length := by
        rw [List.length_map, List.length_range]; omega
      rw [pyGet_ok hc0' hClen']
      simp only [List.getElem_map, List.getElem_range]
      rw [hRcast', hCcast']
      unfold cellVal
      rw [valueAt_place hn hj0 hj1, if_pos (by linarith)]
    rw [msLoop_succ _ _ _ _ _ _ _ htot, hget1]
    simp only []
    rw [hset1]
    simp only []
    rw [hset2]
    simp only []
    rw [hupd, e3, e4, hget2]
    simp only []
    rw [hget3]
    simp only []
    rw [if_pos (by omega : (k + 1 - n + 1 : ℤ) ≠ 0), ← e1, ← e2, hnum]

/-- Running the loop from the state after `k` placements with enough fuel
for the remaining `m` iterations completes the square. -/
theorem msLoop_run {n : ℤ} (hn : 0 < n) :
    ∀ (m : ℕ) (k : ℤ) (fuel : ℕ), 0 ≤ k → k + m = n * n → m ≤ fuel →
      msLoop n (n * n) fuel (gridAt n k) (rowPos n k) (colPos n k) (k + 1) =
        .ok (gridAt n (n * n)) := by
  intro m
  induction m with
  | zero =>
    intro k fuel h0 hsum hfuel
    have hEq : k = n * n := by push_cast at hsum; linarith
    rw [msLoop_done _ _ _ _ _ _ _ (by linarith), hEq]
  | succ m ih =>
    intro k fuel h0 hsum hfuel
    obtain ⟨f, rfl⟩ : ∃ f, fuel = f + 1 := ⟨fuel - 1, by omega⟩
    have hm0 : (0 : ℤ) ≤ (m : ℤ) := Int.natCast_nonneg m
    have hk : k < n * n := by push_cast at hsum; linarith
    rw [msLoop_step hn h0 hk (n * n) (by linarith) f]
    have hres := ih (k + 1) f (by linarith)
      (by push_cast at hsum ⊢; linarith) (by omega)
    rw [show k + 1 + 1 = k + 2 from by ring] at hres
    exact hres

/-- Running the loop from the state after `k` placements with too little
fuel stops with the state after `k + fuel` placements, about to place
number `k + fuel + 1`. -/
theorem msLoop_short {n : ℤ} (hn : 0 < n) :
    ∀ (fuel : ℕ) (k : ℤ), 0 ≤ k → k + fuel < n * n →
      msLoop n (n * n) fuel (gridAt n k) (rowPos n k) (colPos n k) (k + 1) =
        .error (.fuelOut (gridAt n (k + fuel)) (rowPos n (k + fuel))
          (colPos n (k + fuel)) (k + fuel + 1)) := by
  intro fuel
  induction fuel with
  | zero =>
    intro k h0 hlt
    rw [msLoop_fuel_zero _ _ _ _ _ _ (by push_cast at hlt; linarith)]
    norm_num
  | succ f ih =>
    intro k h0 hlt
    have hf0 : (0 : ℤ) ≤ (f : ℤ) := Int.natCast_nonneg f
    have hk : k < n * n := by push_cast at hlt; linarith
    rw [msLoop_step hn h0 hk (n * n) (by linarith) f]
    have hres := ih (k + 1) (by linarith) (by push_cast at hlt ⊢; linarith)
    rw [show k + 1 + 1 = k + 2 from by ring] at hres
    rw [hres]
    have harg : k + 1 + (f : ℤ) = k + ((f + 1 : ℕ) : ℤ) := by push_cast; ring
    rw [harg]

/-- The initial cursor of the code, `(0, n / 2)`, is the placement cell of
number 1. -/
theorem rowPos_zero (n : ℤ) : rowPos n 0 = 0 := by
  unfold rowPos
  norm_num

/-- Column of the first placement: the middle of the top row. -/
theorem colPos_zero {n : ℤ} (hn : 0 < n) : colPos n 0 = n / 2 := by
  unfold colPos
  norm_num
  exact Int.emod_eq_of_lt (Int.ediv_nonneg hn.le (by norm_num))
    ((Int.ediv_lt_iff_lt_mul (by norm_num)).mpr (by linarith))

/-- For odd positive `n`, `create_magic_square` returns the completed
closed-form square. -/
theorem create_eq_gridAt {n : ℤ} (hodd : n % 2 = 1) (hn : 0 < n) :
    create_magic_square n = .ok (some (gridAt n (n * n))) := by
  have hsq : ((n * n).toNat : ℤ) = n * n :=
    Int.toNat_of_nonneg (by positivity)
  have hrun := msLoop_run hn (n * n).toNat 0 (n * n).toNat (le_refl 0)
    (by rw [zero_add, hsq]) (le_refl _)
  rw [rowPos_zero, colPos_zero hn, zero_add, gridAt_zero hn] at hrun
  unfold create_magic_square
  rw [if_neg (by omega), hrun]

/-- Bridge: sum of a function mapped over `List.range` as a `Finset` sum. -/
theorem sum_map_range {M : Type} [AddCommMonoid M] (f : ℕ → M) (N : ℕ) :
    ((List.range N).map f).sum = ∑ i ∈ Finset.range N, f i := by
  induction N with
  | zero => simp
  | succ N ih =>
    rw [List.range_succ, List.map_append, List.sum_append,
      Finset.sum_range_succ, ih]
    simp

/-- Bridge: occurrence count in a mapped range as a `Finset` sum. -/
theorem count_map_range (f : ℕ → ℤ) (N : ℕ) (v : ℤ) :
    ((List.range N).map f).count v =
      ∑ i ∈ Finset.range N, if f i = v then 1 else 0 := by
  induction N with
  | zero => simp
  | succ N ih =>
    rw [List.range_succ, List.map_append, List.count_append,
      Finset.sum_range_succ, ih]
    simp [List.count_cons, beq_iff_eq]

/-- Halving an exact double. -/
theorem half_of_double {S M : ℤ} (h : 2 * S = M) : S = M / 2 := by omega

/-- Gauss sum over `range N`, cast to the integers. -/
theorem sum_range_cast (N : ℕ) :
    (2 : ℤ) * ∑ x ∈ Finset.range N, (x : ℤ) = (N : ℤ) * ((N : ℤ) - 1) := by
  induction N with
  | zero => simp
  | succ N ih =>
    rw [Finset.sum_range_succ, mul_add, ih]
    push_cast
    ring

/-- Reindexing sum: an affine map `x ↦ (a·x + b) mod n` with `a` invertible
modulo `n` permutes the residues `0, …, n-1`. -/
theorem sum_emod_bij {n : ℤ} (hn : 0 < n) (a a' b : ℤ)
    (hinv : (a * a') % n = 1 % n) :
    ∑ x ∈ Finset.range n.toNat, ((a * (x : ℤ) + b) % n) =
      ∑ x ∈ Finset.range n.toNat, ((x : ℤ)) := by
  lift n to ℕ using hn.le
  simp only [Int.toNat_natCast]
  have hNz : ((n : ℕ) : ℤ) ≠ 0 := ne_of_gt hn
  have hc := congrArg (fun t : ℤ => (t : ZMod n)) hinv
  simp only [zmodCast_emod] at hc
  push_cast at hc
  have hi : ∀ x ∈ Finset.range n,
      ((a * (x : ℤ) + b) % ((n : ℕ) : ℤ)).toNat ∈ Finset.range n := by
    intro x hx
    have h1 := Int.emod_nonneg (a * (x : ℤ) + b) hNz
    have h2 := Int.emod_lt_of_pos (a * (x : ℤ) + b) hn
    rw [Finset.mem_range]
    omega
  have hj : ∀ y ∈ Finset.range n,
      ((a' * ((y : ℤ) - b)) % ((n : ℕ) : ℤ)).toNat ∈ Finset.range n := by
    intro y hy
    have h1 := Int.emod_nonneg (a' * ((y : ℤ) - b)) hNz
    have h2 := Int.emod_lt_of_pos (a' * ((y : ℤ) - b)) hn
    rw [Finset.mem_range]
    omega
  have hleft : ∀ x ∈ Finset.range n,
      ((a' * (((((a * (x : ℤ) + b) % ((n : ℕ) : ℤ)).toNat : ℕ) : ℤ) - b))
        % ((n : ℕ) : ℤ)).toNat = x := by
    intro x hx
    rw [Finset.mem_range] at hx
    have h1 := Int.emod_nonneg (a * (x : ℤ) + b) hNz
    rw [Int.toNat_of_nonneg h1]
    have hres : (a' * ((a * (x : ℤ) + b) % ((n : ℕ) : ℤ) - b))
        % ((n : ℕ) : ℤ) = (x : ℤ) := by
      apply emod_eq_of_zmodCast _ (Int.natCast_nonneg x) (by omega)
      push_cast [zmodCast_emod]
      linear_combination ((x : ZMod n)) * hc
    rw [hres, Int.toNat_natCast]
  have hright : ∀ y ∈ Finset.range n,
      ((a * (((((a' * ((y : ℤ) - b)) % ((n : ℕ) : ℤ)).toNat : ℕ) : ℤ)) + b)
        % ((n : ℕ) : ℤ)).toNat = y := by
    intro y hy
    rw [Finset.mem_range] at hy
    have h1 := Int.emod_nonneg (a' * ((y : ℤ) - b)) hNz
    rw [Int.toNat_of_nonneg h1]
    have hres : (a * ((a' * ((y : ℤ) - b)) % ((n : ℕ) : ℤ)) + b)
        % ((n : ℕ) : ℤ) = (y : ℤ) := by
      apply emod_eq_of_zmodCast _ (Int.natCast_nonneg y) (by omega)
      push_cast [zmodCast_emod]
      linear_combination ((y : ZMod n) - (b : ZMod n)) * hc
    rw [hres, Int.toNat_natCast]
  have hfg : ∀ x ∈ Finset.range n, (a * (x : ℤ) + b) % ((n : ℕ) : ℤ) =
      (((((a * (x : ℤ) + b) % ((n : ℕ) : ℤ)).toNat : ℕ)) : ℤ) := by
    intro x hx
    have h1 := Int.emod_nonneg (a * (x : ℤ) + b) hNz
    exact (Int.toNat_of_nonneg h1).symm
  exact Finset.sum_nbij' (fun x => ((a * (x : ℤ) + b) % ((n : ℕ) : ℤ)).toNat)
    (fun y => ((a' * ((y : ℤ) - b)) % ((n : ℕ) : ℤ)).toNat)
    hi hj hleft hright hfg

/-- Flat form of `valueS`, with the inner reduction removed. -/
theorem valueS_flat {n : ℤ} (hn : 0 < n) (r c : ℤ) :
    valueS n r c = (r + 2 * c - 2 * (n / 2)) % n := by
  lift n to ℕ using hn.le
  unfold valueS valueQ
  apply emod_eq_emod_of_zmodCast
  push_cast [zmodCast_emod]
  ring

/-- The residue class of `2` is invertible modulo an odd `n`. -/
theorem two_inv_emod {n : ℤ} (hodd : n % 2 = 1) :
    (2 * ((n + 1) / 2)) % n = 1 % n := by
  have h2 : 2 * ((n + 1) / 2) = n + 1 := by omega
  rw [h2, show n + 1 = 1 + 1 * n from by ring, Int.add_mul_emod_self]

/-- Every row of the completed square sums to the magic constant. -/
theorem row_sum {n : ℤ} (hodd : n % 2 = 1) (hn : 0 < n) (r : ℤ) :
    ∑ c ∈ Finset.range n.toNat, valueAt n r (c : ℤ) = magicSum n := by
  have hNc : ((n.toNat : ℕ) : ℤ) = n := Int.toNat_of_nonneg hn.le
  have hsummand : ∀ c ∈ Finset.range n.toNat, valueAt n r (c : ℤ) =
      n * (((1 : ℤ) * (c : ℤ) + (r - n / 2)) % n) +
        (((2 : ℤ) * (c : ℤ) + (r - 2 * (n / 2))) % n) + 1 := by
    intro c _
    have e1 : (r + (c : ℤ) - n / 2) % n =
        ((1 : ℤ) * (c : ℤ) + (r - n / 2)) % n := by
      congr 1
      ring
    have e2 : (r + 2 * (c : ℤ) - 2 * (n / 2)) % n =
        ((2 : ℤ) * (c : ℤ) + (r - 2 * (n / 2))) % n := by
      congr 1
      ring
    rw [valueAt, valueS_flat hn, valueQ, e1, e2]
  rw [Finset.sum_congr rfl hsummand, Finset.sum_add_distrib,
    Finset.sum_add_distrib, ← Finset.mul_sum,
    sum_emod_bij hn 1 1 (r - n / 2) (by rw [one_mul]),
    sum_emod_bij hn 2 ((n + 1) / 2) (r - 2 * (n / 2)) (two_inv_emod hodd),
    Finset.sum_const, Finset.card_range, nsmul_eq_mul, mul_one]
  have hT := sum_range_cast n.toNat
  rw [hNc] at hT
  rw [hNc]
  unfold magicSum
  exact half_of_double (by linear_combination (n + 1) * hT)

/-- Every column of the completed square sums to the magic constant. -/
theorem col_sum {n : ℤ} (hodd : n % 2 = 1) (hn : 0 < n) (c : ℤ) :
    ∑ r ∈ Finset.range n.toNat, valueAt n (r : ℤ) c = magicSum n := by
  have hNc : ((n.toNat : ℕ) : ℤ) = n := Int.toNat_of_nonneg hn.le
  have hsummand : ∀ r ∈ Finset.range n.toNat, valueAt n (r : ℤ) c =
      n * (((1 : ℤ) * (r : ℤ) + (c - n / 2)) % n) +
        (((1 : ℤ) * (r : ℤ) + (2 * c - 2 * (n / 2))) % n) + 1 := by
    intro r _
    have e1 : ((r : ℤ) + c - n / 2) % n =
        ((1 : ℤ) * (r : ℤ) + (c - n / 2)) % n := by
      congr 1
      ring
    have e2 : ((r : ℤ) + 2 * c - 2 * (n / 2)) % n =
        ((1 : ℤ) * (r : ℤ) + (2 * c - 2 * (n / 2))) % n := by
      congr 1
      ring
    rw [valueAt, valueS_flat hn, valueQ, e1, e2]
  rw [Finset.sum_congr rfl hsummand, Finset.sum_add_distrib,
    Finset.sum_add_distrib, ← Finset.mul_sum,
    sum_emod_bij hn 1 1 (c - n / 2) (by rw [one_mul]),
    sum_emod_bij hn 1 1 (2 * c - 2 * (n / 2)) (by rw [one_mul]),
    Finset.sum_const, Finset.card_range, nsmul_eq_mul, mul_one]
  have hT := sum_range_cast n.toNat
  rw [hNc] at hT
  rw [hNc]
  unfold magicSum
  exact half_of_double (by linear_combination (n + 1) * hT)

/-- The main diagonal of the completed square sums to the magic constant. -/
theorem diag_sum {n : ℤ} (hodd : n % 2 = 1) (hn : 0 < n) :
    ∑ i ∈ Finset.range n.toNat, valueAt n (i : ℤ) (i : ℤ) = magicSum n := by
  have hNc : ((n.toNat : ℕ) : ℤ) = n := Int.toNat_of_nonneg hn.le
  have hrefl := Finset.sum_range_reflect
    (fun i : ℕ => valueAt n (i : ℤ) (i : ℤ)) n.toNat
  have key : 2 * ∑ i ∈ Finset.range n.toNat, valueAt n (i : ℤ) (i : ℤ) =
      n * (n * n + 1) := by
    calc 2 * ∑ i ∈ Finset.range n.toNat, valueAt n (i : ℤ) (i : ℤ)
        = (∑ i ∈ Finset.range n.toNat,
            valueAt n ((n.toNat - 1 - i : ℕ) : ℤ) ((n.toNat - 1 - i : ℕ) : ℤ)) +
          ∑ i ∈ Finset.range n.toNat, valueAt n (i : ℤ) (i : ℤ) := by
          rw [hrefl]; ring
      _ = ∑ i ∈ Finset.range n.toNat,
            (valueAt n ((n.toNat - 1 - i : ℕ) : ℤ) ((n.toNat - 1 - i : ℕ) : ℤ) +
              valueAt n (i : ℤ) (i : ℤ)) := Finset.sum_add_distrib.symm
      _ = ∑ i ∈ Finset.range n.toNat, (n * n + 1) := by
          apply Finset.sum_congr rfl
          intro i hi
          rw [Finset.mem_range] at hi
          have hc : ((n.toNat - 1 - i : ℕ) : ℤ) = n - 1 - (i : ℤ) := by omega
          rw [hc, valueAt_reflect hn hodd]
          ring
      _ = n * (n * n + 1) := by
          rw [Finset.sum_const, Finset.card_range, nsmul_eq_mul, hNc]
  unfold magicSum
  exact half_of_double key

/-- The anti-diagonal of the completed square sums to the magic constant. -/
theorem antidiag_sum {n : ℤ} (hodd : n % 2 = 1) (hn : 0 < n) :
    ∑ i ∈ Finset.range n.toNat, valueAt n (i : ℤ) (n - 1 - (i : ℤ)) =
      magicSum n := by
  have hNc : ((n.toNat : ℕ) : ℤ) = n := Int.toNat_of_nonneg hn.le
  have hrefl := Finset.sum_range_reflect
    (fun i : ℕ => valueAt n (i : ℤ) (n - 1 - (i : ℤ))) n.toNat
  have key : 2 * ∑ i ∈ Finset.range n.toNat,
      valueAt n (i : ℤ) (n - 1 - (i : ℤ)) = n * (n * n + 1) := by
    calc 2 * ∑ i ∈ Finset.range n.toNat, valueAt n (i : ℤ) (n - 1 - (i : ℤ))
        = (∑ i ∈ Finset.range n.toNat,
            valueAt n ((n.toNat - 1 - i : ℕ) : ℤ)
              (n - 1 - ((n.toNat - 1 - i : ℕ) : ℤ))) +
          ∑ i ∈ Finset.range n.toNat, valueAt n (i : ℤ) (n - 1 - (i : ℤ)) := by
          rw [hrefl]; ring
      _ = ∑ i ∈ Finset.range n.toNat,
            (valueAt n ((n.toNat - 1 - i : ℕ) : ℤ)
              (n - 1 - ((n.toNat - 1 - i : ℕ) : ℤ)) +
              valueAt n (i : ℤ) (n - 1 - (i : ℤ))) := Finset.sum_add_distrib.symm
      _ = ∑ i ∈ Finset.range n.toNat, (n * n + 1) := by
          apply Finset.sum_congr rfl
          intro i hi
          rw [Finset.mem_range] at hi
          have hc : ((n.toNat - 1 - i : ℕ) : ℤ) = n - 1 - (i : ℤ) := by omega
          rw [hc, valueAt_reflect hn hodd]
          ring
      _ = n * (n * n + 1) := by
          rw [Finset.sum_const, Finset.card_range, nsmul_eq_mul, hNc]
  unfold magicSum
  exact half_of_double key

/-- After all `n²` placements, the sentinel is gone: every cell holds its
closed-form value. -/
theorem cellVal_full {n : ℤ} (hn : 0 < n) (r c : ℤ) :
    cellVal n (n * n) r c = valueAt n r c := by
  unfold cellVal
  rw [if_pos (valueAt_bounds hn r c).2]

/-- Occurrence count of a nonzero value in the grid after `k` placements:
each of `1, …, k` appears exactly once, nothing else appears. -/
theorem count_gridAt {n : ℤ} (hn : 0 < n) {k : ℤ} (hk : k ≤ n * n)
    {v : ℤ} (hv : v ≠ 0) :
    (gridAt n k).flatten.count v = if 1 ≤ v ∧ v ≤ k then 1 else 0 := by
  unfold gridAt
  rw [List.count_flatten, List.map_map, sum_map_range]
  simp only [Function.comp]
  have hrowc : ∀ r ∈ Finset.range n.toNat,
      ((List.range n.toNat).map fun c : ℕ => cellVal n k (r : ℤ) (c : ℤ)).count v
        = ∑ c ∈ Finset.range n.toNat,
            if cellVal n k (r : ℤ) (c : ℤ) = v then 1 else 0 :=
    fun r _ => count_map_range _ _ v
  rw [Finset.sum_congr rfl hrowc]
  by_cases hvk : 1 ≤ v ∧ v ≤ k
  · rw [if_pos hvk]
    have hv0 : 0 ≤ v - 1 := by linarith [hvk.1]
    have hv1 : v - 1 < n * n := by linarith [hvk.2]
    obtain ⟨hr0, hr1⟩ := rowPos_bounds hn (v - 1)
    obtain ⟨hc0, hc1⟩ := colPos_bounds hn (v - 1)
    have hcond : ∀ r ∈ Finset.range n.toNat, ∀ c ∈ Finset.range n.toNat,
        (cellVal n k (r : ℤ) (c : ℤ) = v ↔
          r = (rowPos n (v - 1)).toNat ∧ c = (colPos n (v - 1)).toNat) := by
      intro r hr c hc
      rw [Finset.mem_range] at hr hc
      constructor
      · intro hEq
        unfold cellVal at hEq
        by_cases hle : valueAt n (r : ℤ) (c : ℤ) ≤ k
        · rw [if_pos hle] at hEq
          have hplace := (valueAt_eq_iff hn hv0 hv1 (Int.natCast_nonneg r)
            (by omega) (Int.natCast_nonneg c) (by omega)).mp
            (by rw [hEq]; ring)
          constructor
          · rw [← hplace.1, Int.toNat_natCast]
          · rw [← hplace.2, Int.toNat_natCast]
        · rw [if_neg hle] at hEq
          exact absurd hEq.symm hv
      · rintro ⟨rfl, rfl⟩
        have hcast1 : ((((rowPos n (v - 1)).toNat : ℕ)) : ℤ) =
            rowPos n (v - 1) := Int.toNat_of_nonneg hr0
        have hcast2 : ((((colPos n (v - 1)).toNat : ℕ)) : ℤ) =
            colPos n (v - 1) := Int.toNat_of_nonneg hc0
        unfold cellVal
        rw [hcast1, hcast2, valueAt_place hn hv0 hv1,
          if_pos (by linarith [hvk.2])]
        ring
    have hsum : ∀ r ∈ Finset.range n.toNat,
        (∑ c ∈ Finset.range n.toNat,
          if cellVal n k (r : ℤ) (c : ℤ) = v then 1 else 0) =
        if r = (rowPos n (v - 1)).toNat then (1 : ℕ) else 0 := by
      intro r hr
      by_cases hrR : r = (rowPos n (v - 1)).toNat
      · rw [if_pos hrR]
        have hinner : ∀ c ∈ Finset.range n.toNat,
            (if cellVal n k (r : ℤ) (c : ℤ) = v then (1 : ℕ) else 0) =
            (if c = (colPos n (v - 1)).toNat then (1 : ℕ) else 0) := by
          intro c hc
          refine if_congr ?_ rfl rfl
          rw [hcond r hr c hc]
          constructor
          · exact fun hh => hh.2
          · exact fun hh => ⟨hrR, hh⟩
        rw [Finset.sum_congr rfl hinner,
          Finset.sum_ite_eq' (Finset.range n.toNat)
            ((colPos n (v - 1)).toNat) (fun _ => (1 : ℕ)),
          if_pos (Finset.mem_range.mpr (by omega))]
      · rw [if_neg hrR]
        apply Finset.sum_eq_zero
        intro c hc
        rw [if_neg (fun hEq => hrR ((hcond r hr c hc).mp hEq).1)]
    rw [Finset.sum_congr rfl hsum,
      Finset.sum_ite_eq' (Finset.range n.toNat)
        ((rowPos n (v - 1)).toNat) (fun _ => (1 : ℕ)),
      if_pos (Finset.mem_range.mpr (by omega))]
  · rw [if_neg hvk]
    apply Finset.sum_eq_zero
    intro r hr
    apply Finset.sum_eq_zero
    intro c hc
    rw [if_neg]
    intro hEq
    unfold cellVal at hEq
    by_cases hle : valueAt n (r : ℤ) (c : ℤ) ≤ k
    · rw [if_pos hle] at hEq
      have hb := valueAt_bounds hn (r : ℤ) (c : ℤ)
      exact hvk ⟨by linarith [hb.1], by linarith⟩
    · rw [if_neg hle] at hEq
      exact hv hEq.symm

/-- C1: for every odd positive integer `n`, `create_magic_square n` returns
a fully populated `n × n` grid in which each integer from `1` to `n·n`
appears exactly once, and the sum of every row, the sum of every column,
and the sums of both main diagonals all equal `n·(n·n + 1)/2`. -/
theorem c1_magic_square_correct (n : ℤ) (hodd : n % 2 = 1) (hpos : 0 < n) :
    ∃ g : List (List ℤ),
      create_magic_square n = .ok (some g) ∧
      g.length = n.toNat ∧
      (∀ row ∈ g, row.length = n.toNat) ∧
      (∀ row ∈ g, ∀ x ∈ row, 1 ≤ x ∧ x ≤ n * n) ∧
      (∀ v : ℤ, 1 ≤ v → v ≤ n * n → g.flatten.count v = 1) ∧
      (∀ row ∈ g, row.sum = magicSum n) ∧
      (∀ j : ℕ, j < n.toNat →
        (g.map fun row => row.getD j 0).sum = magicSum n) ∧
      (((List.range n.toNat).map fun i : ℕ =>
        (g.getD i []).getD i 0).sum = magicSum n) ∧
      (((List.range n.toNat).map fun i : ℕ =>
        (g.getD i []).getD (n.toNat - 1 - i) 0).sum = magicSum n) := by
  have hNc : ((n.toNat : ℕ) : ℤ) = n := Int.toNat_of_nonneg hpos.le
  refine ⟨gridAt n (n * n), create_eq_gridAt hodd hpos, gridAt_length n (n * n),
    ?_, ?_, ?_, ?_, ?_, ?_, ?_⟩
  · intro row hrow
    unfold gridAt at hrow
    rw [List.mem_map] at hrow
    obtain ⟨r, _, rfl⟩ := hrow
    rw [List.length_map, List.length_range]
  · intro row hrow x hx
    unfold gridAt at hrow
    rw [List.mem_map] at hrow
    obtain ⟨r, _, rfl⟩ := hrow
    rw [List.mem_map] at hx
    obtain ⟨c, _, rfl⟩ := hx
    rw [cellVal_full hpos]
    exact valueAt_bounds hpos _ _
  · intro v h1 h2
    rw [count_gridAt hpos (le_refl (n * n)) (by omega : v ≠ 0),
      if_pos ⟨h1, h2⟩]
  · intro row hrow
    unfold gridAt at hrow
    rw [List.mem_map] at hrow
    obtain ⟨r, _, rfl⟩ := hrow
    rw [sum_map_range]
    exact Eq.trans
      (Finset.sum_congr rfl fun c _ => cellVal_full hpos (r : ℤ) (c : ℤ))
      (row_sum hodd hpos (r : ℤ))
  · intro j hj
    unfold gridAt
    rw [List.map_map, sum_map_range]
    simp only [Function.comp]
    have hcong : ∀ r ∈ Finset.range n.toNat,
        ((List.range n.toNat).map fun c : ℕ =>
          cellVal n (n * n) (r : ℤ) (c : ℤ)).getD j 0 =
        valueAt n (r : ℤ) (j : ℤ) := by
      intro r hr
      rw [List.getD_eq_getElem _ _
        (by rw [List.length_map, List.length_range]; omega)]
      simp only [List.getElem_map, List.getElem_range]
      rw [cellVal_full hpos]
    rw [Finset.sum_congr rfl hcong]
    exact col_sum hodd hpos (j : ℤ)
  · rw [sum_map_range]
    have hcong : ∀ i ∈ Finset.range n.toNat,
        ((gridAt n (n * n)).getD i []).getD i 0 =
        valueAt n (i : ℤ) (i : ℤ) := by
      intro i hi
      rw [Finset.mem_range] at hi
      have hiL : i < (gridAt n (n * n)).length := by rw [gridAt_length]; omega
      rw [List.getD_eq_getElem _ _ hiL, gridAt_getElem n (n * n) hiL,
        List.getD_eq_getElem _ _
          (by rw [List.length_map, List.length_range]; omega)]
      simp only [List.getElem_map, List.getElem_range]
      rw [cellVal_full hpos]
    rw [Finset.sum_congr rfl hcong]
    exact diag_sum hodd hpos
  · rw [sum_map_range]
    have hcong : ∀ i ∈ Finset.range n.toNat,
        ((gridAt n (n * n)).getD i []).getD (n.toNat - 1 - i) 0 =
        valueAt n (i : ℤ) (n - 1 - (i : ℤ)) := by
      intro i hi
      rw [Finset.mem_range] at hi
      have hiL : i < (gridAt n (n * n)).length := by rw [gridAt_length]; omega
      rw [List.getD_eq_getElem _ _ hiL, gridAt_getElem n (n * n) hiL,
        List.getD_eq_getElem _ _
          (by rw [List.length_map, List.length_range]; omega)]
      simp only [List.getElem_map, List.getElem_range]
      rw [cellVal_full hpos]
      have hcast : ((n.toNat - 1 - i : ℕ) : ℤ) = n - 1 - (i : ℤ) := by omega
      rw [hcast]
    rw [Finset.sum_congr rfl hcong]
    exact antidiag_sum hodd hpos

/-- The first number is written at the top-middle cell. -/
theorem valueAt_origin {n : ℤ} (hn : 0 < n) : valueAt n 0 (n / 2) = 1 := by
  simp only [valueAt, valueS, valueQ]
  rw [show (0 + n / 2 - n / 2 : ℤ) = 0 from by ring, Int.zero_emod,
    show (2 * 0 - 0 : ℤ) = 0 from by ring, Int.zero_emod]
  ring

/-- C2: for every even integer `n`, `create_magic_square n` fails with the
`InvalidSize` condition of the code — the Python `None` return, modelled as
`.ok none`: no grid and no partial result is produced. -/
theorem c2_even_rejected (n : ℤ) (h : n % 2 = 0) :
    create_magic_square n = .ok none := by
  unfold create_magic_square
  rw [if_pos h]

/-- C2 witness at the even input `n = 4`. -/
theorem c2_even_rejected_witness : create_magic_square 4 = .ok none :=
  c2_even_rejected 4 (by decide)

/-- C3 counterexample: at the odd non-positive input `n = -3` the code does
not signal the `InvalidSize` condition; Python's `-3 % 2 == 1` passes the
parity test, the grid comprehension builds an empty list, and the first
write `magic_square[0][c] = 1` raises a generic `IndexError`. -/
theorem c3_counterexample :
    create_magic_square (-3) = .error .indexError := by
  simp [create_magic_square, msLoop, pyGet, pySet, pyIdx]

/-- C3 (amended): a non-positive `n` is rejected with the `InvalidSize`
condition (the `None` return) only when it is even, `n = 0` included; for
every odd non-positive `n` the function instead raises a generic
`IndexError` fault and signals nothing to the caller. -/
theorem c3_nonpositive_amended (n : ℤ) (h : n ≤ 0) :
    (n % 2 = 0 → create_magic_square n = .ok none) ∧
    (n % 2 = 1 → create_magic_square n = .error .indexError) := by
  constructor
  · intro he
    unfold create_magic_square
    rw [if_pos he]
  · intro ho
    have hneg : n < 0 := by omega
    unfold create_magic_square
    rw [if_neg (by omega)]
    have hN0 : n.toNat = 0 := by omega
    rw [hN0]
    have hsq : (1 : ℤ) ≤ n * n := by nlinarith
    generalize hM : n * n = M at hsq ⊢
    obtain ⟨f, hf⟩ : ∃ f, M.toNat = f + 1 := ⟨M.toNat - 1, by omega⟩
    rw [hf, msLoop_succ _ _ _ _ _ _ _ (by linarith)]
    have hgetfail : pyGet (List.replicate 0 (List.replicate 0 (0 : ℤ))) 0 =
        .error .indexError := by
      simp [pyGet, pyIdx]
    rw [hgetfail]

/-- C3 amended-claim witness at `n = -3` (odd branch) and implicitly the
even branch hypothesis. -/
theorem c3_nonpositive_amended_witness :
    ((-3 : ℤ) % 2 = 0 → create_magic_square (-3) = .ok none) ∧
    ((-3 : ℤ) % 2 = 1 → create_magic_square (-3) = .error .indexError) :=
  c3_nonpositive_amended (-3) (by decide)

/-- C5: for every odd positive `n`, the returned grid holds the number 1 at
row 0, column `n div 2` — the middle of the top row. -/
theorem c5_first_at_top_middle (n : ℤ) (hodd : n % 2 = 1) (hpos : 0 < n) :
    ∃ g, create_magic_square n = .ok (some g) ∧
      (g.getD 0 []).getD (n / 2).toNat 0 = 1 := by
  refine ⟨gridAt n (n * n), create_eq_gridAt hodd hpos, ?_⟩
  have h0L : 0 < (gridAt n (n * n)).length := by rw [gridAt_length]; omega
  have hH0 : 0 ≤ n / 2 := Int.ediv_nonneg hpos.le (by norm_num)
  have hH1 : n / 2 < n :=
    (Int.ediv_lt_iff_lt_mul (by norm_num)).mpr (by linarith)
  rw [List.getD_eq_getElem _ _ h0L, gridAt_getElem n (n * n) h0L,
    List.getD_eq_getElem _ _
      (by rw [List.length_map, List.length_range]; omega)]
  simp only [List.getElem_map, List.getElem_range]
  rw [cellVal_full hpos, Nat.cast_zero, Int.toNat_of_nonneg hH0,
    valueAt_origin hpos]

/-- C5 witness at `n = 3`. -/
theorem c5_first_at_top_middle_witness :
    ∃ g, create_magic_square 3 = .ok (some g) ∧
      (g.getD 0 []).getD ((3 : ℤ) / 2).toNat 0 = 1 :=
  c5_first_at_top_middle 3 (by decide) (by decide)

/-- C6: `create_magic_square 3` returns exactly the expected grid, whose
row sums, column sums, and both diagonal sums are all 15. -/
theorem c6_three_by_three :
    create_magic_square 3 = .ok (some [[8, 1, 6], [3, 5, 7], [4, 9, 2]]) ∧
    ([8, 1, 6] : List ℤ).sum = 15 ∧ ([3, 5, 7] : List ℤ).sum = 15 ∧
    ([4, 9, 2] : List ℤ).sum = 15 ∧
    (8 + 3 + 4 : ℤ) = 15 ∧ (1 + 5 + 9 : ℤ) = 15 ∧ (6 + 7 + 2 : ℤ) = 15 ∧
    (8 + 5 + 2 : ℤ) = 15 ∧ (6 + 5 + 4 : ℤ) = 15 := by
  refine ⟨?_, by decide, by decide, by decide, by decide, by decide,
    by decide, by decide, by decide⟩
  simp [create_magic_square, msLoop, pyGet, pySet, pyIdx]

/-- C7: `create_magic_square 1` returns the 1×1 grid holding only 1. -/
theorem c7_degenerate_one : create_magic_square 1 = .ok (some [[1]]) := by
  simp [create_magic_square, msLoop, pyGet, pySet, pyIdx]

/-- C9: `create_magic_square` is deterministic — it is a pure function of
`n` alone, so equal inputs give identical outcomes. -/
theorem c9_deterministic (m n : ℤ) (h : m = n) :
    create_magic_square m = create_magic_square n := by
  rw [h]

/-- C9 witness: two calls at `n = 3`. -/
theorem c9_deterministic_witness :
    create_magic_square 3 = create_magic_square 3 :=
  c9_deterministic 3 3 rfl

/-- C4: on any well-formed loop state, one iteration of the code's loop
first assigns `grid[r][c] = num` and then moves the cursor exactly by the
spec's Siamese step rule `specNextCursor`: the candidate is
`((r - 1) mod n, (c + 1) mod n)` with toroidal wraparound; if — and only
if — that single candidate cell is occupied (not the sentinel 0), the
cursor instead becomes `((r + 1) mod n, c)`, one row straight down from
the previous placement with the column unchanged. -/
theorem c4_step_rule (n total : ℤ) (hn : 0 < n) (g : List (List ℤ))
    (r c num : ℤ) (fuel : ℕ)
    (hlen : g.length = n.toNat)
    (hrows : ∀ row ∈ g, row.length = n.toNat)
    (hr0 : 0 ≤ r) (hr1 : r < n) (hc0 : 0 ≤ c) (hc1 : c < n)
    (hnum : num ≤ total) :
    msLoop n total (fuel + 1) g r c num =
      msLoop n total fuel
        (g.set r.toNat ((g.getD r.toNat []).set c.toNat num))
        (specNextCursor n
          (g.set r.toNat ((g.getD r.toNat []).set c.toNat num)) r c).1
        (specNextCursor n
          (g.set r.toNat ((g.getD r.toNat []).set c.toNat num)) r c).2
        (num + 1) := by
  have hRlen : r.toNat < g.length := by rw [hlen]; omega
  rw [List.getD_eq_getElem _ _ hRlen]
  have hget1 : pyGet g r = .ok (g[r.toNat]) := pyGet_ok hr0 hRlen
  have hrowlen : (g[r.toNat]).length = n.toNat := hrows _ (List.getElem_mem _)
  have hClen : c.toNat < (g[r.toNat]).length := by rw [hrowlen]; omega
  have hset1 : pySet (g[r.toNat]) c num =
      .ok ((g[r.toNat]).set c.toNat num) := pySet_ok _ hc0 hClen
  have hset2 : pySet g r ((g[r.toNat]).set c.toNat num) =
      .ok (g.set r.toNat ((g[r.toNat]).set c.toNat num)) :=
    pySet_ok _ hr0 hRlen
  have hnr0 : 0 ≤ (r - 1) % n := Int.emod_nonneg _ (ne_of_gt hn)
  have hnr1 : (r - 1) % n < n := Int.emod_lt_of_pos _ hn
  have hnc0 : 0 ≤ (c + 1) % n := Int.emod_nonneg _ (ne_of_gt hn)
  have hnc1 : (c + 1) % n < n := Int.emod_lt_of_pos _ hn
  have hg2len : (g.set r.toNat ((g[r.toNat]).set c.toNat num)).length =
      n.toNat := by rw [List.length_set, hlen]
  have hNRlen : ((r - 1) % n).toNat <
      (g.set r.toNat ((g[r.toNat]).set c.toNat num)).length := by
    rw [hg2len]; omega
  have hget2 : pyGet (g.set r.toNat ((g[r.toNat]).set c.toNat num))
      ((r - 1) % n) =
      .ok ((g.set r.toNat ((g[r.toNat]).set c.toNat num))[((r - 1) % n).toNat]) :=
    pyGet_ok hnr0 hNRlen
  have hrow3len :
      ((g.set r.toNat ((g[r.toNat]).set c.toNat num))[((r - 1) % n).toNat]).length =
      n.toNat := by
    rw [List.getElem_set]
    by_cases hj : r.toNat = ((r - 1) % n).toNat
    · rw [if_pos hj, List.length_set]
      exact hrowlen
    · rw [if_neg hj]
      exact hrows _ (List.getElem_mem _)
  have hNClen : ((c + 1) % n).toNat <
      ((g.set r.toNat ((g[r.toNat]).set c.toNat num))[((r - 1) % n).toNat]).length := by
    rw [hrow3len]; omega
  have hget3 : pyGet
      ((g.set r.toNat ((g[r.toNat]).set c.toNat num))[((r - 1) % n).toNat])
      ((c + 1) % n) =
      .ok (((g.set r.toNat
        ((g[r.toNat]).set c.toNat num))[((r - 1) % n).toNat])[((c + 1) % n).toNat]) :=
    pyGet_ok hnc0 hNClen
  have hspec : specNextCursor n
      (g.set r.toNat ((g[r.toNat]).set c.toNat num)) r c =
      if ((g.set r.toNat
          ((g[r.toNat]).set c.toNat num))[((r - 1) % n).toNat])[((c + 1) % n).toNat] ≠ 0
      then ((r + 1) % n, c) else ((r - 1) % n, (c + 1) % n) := by
    simp only [specNextCursor]
    rw [List.getD_eq_getElem _ _ hNRlen, List.getD_eq_getElem _ _ hNClen]
  rw [msLoop_succ _ _ _ _ _ _ _ hnum, hget1]
  simp only []
  rw [hset1]
  simp only []
  rw [hset2]
  simp only []
  rw [hget2]
  simp only []
  rw [hget3]
  simp only []
  rw [hspec]
  by_cases hocc : ((g.set r.toNat
      ((g[r.toNat]).set c.toNat num))[((r - 1) % n).toNat])[((c + 1) % n).toNat] ≠ 0
  · rw [if_pos hocc, if_pos hocc]
  · rw [if_neg hocc, if_neg hocc]

/-- C4 witness: the first step on a fresh 3×3 grid (placing 1 at the top
middle). -/
theorem c4_step_rule_witness :
    msLoop 3 9 (8 + 1) [[0, 0, 0], [0, 0, 0], [0, 0, 0]] 0 1 1 =
      msLoop 3 9 8
        ([[0, 0, 0], [0, 0, 0], [0, 0, 0]].set (0 : ℤ).toNat
          (([[0, 0, 0], [0, 0, 0], [0, 0, 0]].getD (0 : ℤ).toNat []).set
            (1 : ℤ).toNat 1))
        (specNextCursor 3
          ([[0, 0, 0], [0, 0, 0], [0, 0, 0]].set (0 : ℤ).toNat
            (([[0, 0, 0], [0, 0, 0], [0, 0, 0]].getD (0 : ℤ).toNat []).set
              (1 : ℤ).toNat 1)) 0 1).1
        (specNextCursor 3
          ([[0, 0, 0], [0, 0, 0], [0, 0, 0]].set (0 : ℤ).toNat
            (([[0, 0, 0], [0, 0, 0], [0, 0, 0]].getD (0 : ℤ).toNat []).set
              (1 : ℤ).toNat 1)) 0 1).2
        (1 + 1) :=
  c4_step_rule 3 9 (by decide) [[0, 0, 0], [0, 0, 0], [0, 0, 0]] 0 1 1 8
    (by decide) (by decide) (by decide) (by decide) (by decide) (by decide)
    (by decide)

/-- C8: for every odd positive `n`, the construction loop terminates after
exactly `n·n` placement iterations: with a budget of `n·n` steps it
completes and returns the square, and with any smaller budget `f` it is
still running, about to place number `f + 1` — one placement per number in
increasing order. -/
theorem c8_exact_iterations (n : ℤ) (hodd : n % 2 = 1) (hpos : 0 < n) :
    (msLoop n (n * n) (n * n).toNat
        (List.replicate n.toNat (List.replicate n.toNat 0)) 0 (n / 2) 1 =
      .ok (gridAt n (n * n))) ∧
    (∀ f : ℕ, f < (n * n).toNat →
      ∃ g r c, msLoop n (n * n) f
          (List.replicate n.toNat (List.replicate n.toNat 0)) 0 (n / 2) 1 =
        .error (.fuelOut g r c ((f : ℤ) + 1))) := by
  have hsq : ((n * n).toNat : ℤ) = n * n := Int.toNat_of_nonneg (by positivity)
  constructor
  · have hrun := msLoop_run hpos (n * n).toNat 0 (n * n).toNat (le_refl 0)
      (by rw [zero_add, hsq]) (le_refl _)
    rw [rowPos_zero, colPos_zero hpos, gridAt_zero hpos] at hrun
    simp only [zero_add] at hrun
    exact hrun
  · intro f hf
    have hflt : (0 : ℤ) + (f : ℤ) < n * n := by
      rw [zero_add, ← hsq]
      exact_mod_cast hf
    have hshort := msLoop_short hpos f 0 (le_refl 0) hflt
    rw [rowPos_zero, colPos_zero hpos, gridAt_zero hpos] at hshort
    simp only [zero_add] at hshort
    exact ⟨gridAt n (f : ℤ), rowPos n (f : ℤ), colPos n (f : ℤ), hshort⟩

/-- C8 witness at `n = 3`. -/
theorem c8_exact_iterations_witness :
    (msLoop 3 (3 * 3) ((3 : ℤ) * 3).toNat
        (List.replicate (3 : ℤ).toNat (List.replicate (3 : ℤ).toNat 0)) 0
        ((3 : ℤ) / 2) 1 = .ok (gridAt 3 (3 * 3))) ∧
    (∀ f : ℕ, f < ((3 : ℤ) * 3).toNat →
      ∃ g r c, msLoop 3 (3 * 3) f
          (List.replicate (3 : ℤ).toNat (List.replicate (3 : ℤ).toNat 0)) 0
          ((3 : ℤ) / 2) 1 = .error (.fuelOut g r c ((f : ℤ) + 1))) :=
  c8_exact_iterations 3 (by decide) (by decide)

/-- C10: for every odd positive `n`, after any `j < n·n` iterations the
loop state has the values `1, …, j` each in exactly one cell (and no other
nonzero value anywhere), and the cell the next iteration is about to write
still holds the empty sentinel 0 — no cell is ever overwritten. -/
theorem c10_no_overwrite (n : ℤ) (hodd : n % 2 = 1) (hpos : 0 < n)
    (j : ℕ) (hj : (j : ℤ) < n * n) :
    ∃ g r c, msLoop n (n * n) j
        (List.replicate n.toNat (List.replicate n.toNat 0)) 0 (n / 2) 1 =
      .error (.fuelOut g r c ((j : ℤ) + 1)) ∧
      (g.getD r.toNat []).getD c.toNat 0 = 0 ∧
      (∀ v : ℤ, v ≠ 0 →
        g.flatten.count v = if 1 ≤ v ∧ v ≤ (j : ℤ) then 1 else 0) := by
  have hshort := msLoop_short hpos j 0 (le_refl 0) (by rw [zero_add]; exact hj)
  rw [rowPos_zero, colPos_zero hpos, gridAt_zero hpos] at hshort
  simp only [zero_add] at hshort
  refine ⟨gridAt n (j : ℤ), rowPos n (j : ℤ), colPos n (j : ℤ), hshort, ?_, ?_⟩
  · obtain ⟨hr0, hr1⟩ := rowPos_bounds hpos (j : ℤ)
    obtain ⟨hc0, hc1⟩ := colPos_bounds hpos (j : ℤ)
    have hRlen : (rowPos n (j : ℤ)).toNat < (gridAt n (j : ℤ)).length := by
      rw [gridAt_length]; omega
    rw [List.getD_eq_getElem _ _ hRlen, gridAt_getElem n _ hRlen,
      List.getD_eq_getElem _ _
        (by rw [List.length_map, List.length_range]; omega)]
    simp only [List.getElem_map, List.getElem_range]
    rw [Int.toNat_of_nonneg hr0, Int.toNat_of_nonneg hc0]
    unfold cellVal
    rw [valueAt_place hpos (Int.natCast_nonneg j) hj, if_neg (by linarith)]
  · intro v hv
    exact count_gridAt hpos (by linarith) hv

/-- C10 witness at `n = 3`, `j = 4`. -/
theorem c10_no_overwrite_witness :
    ∃ g r c, msLoop 3 (3 * 3) 4
        (List.replicate (3 : ℤ).toNat (List.replicate (3 : ℤ).toNat 0)) 0
        ((3 : ℤ) / 2) 1 = .error (.fuelOut g r c (((4 : ℕ) : ℤ) + 1)) ∧
      (g.getD r.toNat []).getD c.toNat 0 = 0 ∧
      (∀ v : ℤ, v ≠ 0 →
        g.flatten.count v = if 1 ≤ v ∧ v ≤ ((4 : ℕ) : ℤ) then 1 else 0) :=
  c10_no_overwrite 3 (by decide) (by decide) 4 (by decide)

/-- C1 witness at `n = 3`. -/
theorem c1_magic_square_correct_witness :
    ∃ g : List (List ℤ),
      create_magic_square 3 = .ok (some g) ∧
      g.length = (3 : ℤ).toNat ∧
      (∀ row ∈ g, row.length = (3 : ℤ).toNat) ∧
      (∀ row ∈ g, ∀ x ∈ row, 1 ≤ x ∧ x ≤ 3 * 3) ∧
      (∀ v : ℤ, 1 ≤ v → v ≤ 3 * 3 → g.flatten.count v = 1) ∧
      (∀ row ∈ g, row.sum = magicSum 3) ∧
      (∀ j : ℕ, j < (3 : ℤ).toNat →
        (g.map fun row => row.getD j 0).sum = magicSum 3) ∧
      (((List.range (3 : ℤ).toNat).map fun i : ℕ =>
        (g.getD i []).getD i 0).sum = magicSum 3) ∧
      (((List.range (3 : ℤ).toNat).map fun i : ℕ =>
        (g.getD i []).getD ((3 : ℤ).toNat - 1 - i) 0).sum = magicSum 3) :=
  c1_magic_square_correct 3 (by decide) (by decide)
